import Mathlib

/-!
Shallow embedding of the Rufus servo motion controller
(`src/voice_stt_tts_fixed.py` and `src/pi_api_server.py`).

The serial port is modelled by `Rufus.Serial`: `is_open` mirrors
`arduino.is_open`, `inbox` is the (finite) sequence of lines the device
will make available to `readline`, and `writeFails` models an I/O
exception raised by `arduino.write`.  Each embedded operation returns,
besides its Python return value, the list of bytes written to the wire
and/or the list of servo commands issued, so that the I/O behaviour of
the code is a value the theorems can speak about.
-/

namespace Rufus

/-- Python's `int(...)` applied to a real number: truncation toward zero. -/
def ratTrunc (q : ℚ) : ℤ := if 0 ≤ q then ⌊q⌋ else ⌈q⌉

/-!
CPython executes `smooth_move`'s interpolation in IEEE-754 binary64
("double") arithmetic, so the embedding models that arithmetic exactly:
every operation produces the true real result rounded to the binary64
grid, to nearest with ties to even.  A binary64 value is a rational
`k * 2 ^ e` with `|k| < 2 ^ 53` and `e ≥ -1074`; the exponent is
unbounded above here, and the overflow threshold `2 ^ 1024` is checked by
the operations themselves, which lets them reproduce CPython's
`OverflowError` / infinity behaviour. -/

/-- Round a rational to an integer, to nearest with ties to even
(IEEE-754 `roundTiesToEven`). -/
def rndNE (q : ℚ) : ℤ :=
  if Int.fract q < 1 / 2 then ⌊q⌋
  else if 1 / 2 < Int.fract q then ⌊q⌋ + 1
  else if Even ⌊q⌋ then ⌊q⌋ else ⌊q⌋ + 1

/-- The binary64 grid exponent at magnitude `|x|`: representable values
near `x` are spaced `2 ^ flExp x` apart (52 fractional significand bits,
exponent clamped below at the subnormal limit `-1074`). -/
def flExp (x : ℚ) : ℤ := max (Int.log 2 |x| - 52) (-1074)

/-- Correctly rounded binary64 value of the real `x`: the nearest multiple
of `2 ^ flExp x`, ties to even.  The exponent is not clamped above; the
callers compare against `flHuge` where CPython overflows. -/
def fl (x : ℚ) : ℚ := (rndNE (x / 2 ^ flExp x) : ℚ) * 2 ^ flExp x

/-- `2 ^ 1024`, the smallest magnitude beyond the binary64 range. -/
def flHuge : ℚ := 2 ^ 1024

/-- CPython `int / int` true division (`(target_angle - current_pos) /
steps`): the correctly rounded binary64 quotient; `none` models the
`OverflowError` raised when the rounded quotient leaves the double range,
and the `ZeroDivisionError` for a zero divisor — either exception sends
`smooth_move` to its handler before any command is issued. -/
def pyDivIntInt (a : Int) (b : Nat) : Option ℚ :=
  if b = 0 then none
  else
    let q := fl ((a : ℚ) / (b : ℚ))
    if flHuge ≤ |q| then none else some q

/-- Python's `str.startswith`: the characters of `pre` are a prefix of the
characters of `r`. -/
def pyStartsWith (r pre : String) : Bool := pre.data.isPrefixOf r.data

/-- Model of a `pyserial` handle. -/
structure Serial where
  is_open : Bool
  inbox : List String
  writeFails : Bool
deriving DecidableEq, Repr

namespace Voice

/-- `SERVO_PINS` of `voice_stt_tts_fixed.py` (lines 43-48). -/
def SERVO_PINS : List (String × Nat) :=
  [("head", 2), ("pan", 2), ("left_arm", 4), ("right_arm", 5)]

/-- `SERVO_REST` of `voice_stt_tts_fixed.py` (lines 51-56). -/
def SERVO_REST : List (String × Int) :=
  [("head", 90), ("pan", 90), ("left_arm", 90), ("right_arm", 90)]

/-- The handshake wait loop of `init_arduino` in `voice_stt_tts_fixed.py`
(lines 66-71): `while True: if in_waiting > 0: ... if response == "READY":
return True`.  The argument is the complete sequence of lines the device
ever sends; `none` models the loop never returning (once the inbox is
exhausted the loop busy-waits forever, and the `return True` after the
loop is unreachable). -/
def init_arduino_wait : List String → Option Bool
  | [] => none
  | r :: rest => if r = "READY" then some true else init_arduino_wait rest

/-- `send_servo_command` of `voice_stt_tts_fixed.py` (lines 80-105).
Returns the Python boolean result, the list of lines written to the wire,
and the serial handle afterwards (reading the acknowledgment consumes a
line from the inbox). -/
def send_servo_command (arduino : Option Serial) (servo : String) (angle : Int) :
    Bool × List String × Option Serial :=
  match arduino with
  | none => (false, [], none)
  | some s =>
    if s.is_open = false then (false, [], some s)
    else
      match SERVO_PINS.lookup servo with
      | none => (false, [], some s)
      | some pin =>
        if s.writeFails then (false, [], some s)
        else
          let command := toString pin ++ ":" ++ toString angle ++ "\n"
          match s.inbox with
          | [] => (false, [command], some s)
          | r :: rest => (pyStartsWith r "OK", [command], some { s with inbox := rest })

/-- The loop body expression `int(current_pos + (step_size * (i + 1)))` of
`smooth_move` (line 119), in CPython semantics: `i + 1` converts to
binary64 (correctly rounded; `OverflowError` beyond the double range),
the product and the sum each round correctly (overflow gives an IEEE
infinity), and `int()` of an infinity raises `OverflowError`.  `none`
models every exceptional outcome — each aborts the loop through
`smooth_move`'s handler at this iteration. -/
def pyStepAngle (current_pos : Int) (step_size : ℚ) (i : Nat) : Option Int :=
  let m := fl ((i : ℚ) + 1)
  let p := fl (step_size * m)
  let cp := fl ((current_pos : ℚ))
  let s := fl (cp + p)
  if flHuge ≤ |m| ∨ flHuge ≤ |p| ∨ flHuge ≤ |cp| ∨ flHuge ≤ |s| then none
  else some (ratTrunc s)

/-- `step_size = (target_angle - current_pos) / steps` (line 116) on the
non-exceptional path. -/
def flStepSize (current_pos target : Int) (steps : Nat) : ℚ :=
  fl (((target - current_pos : Int) : ℚ) / (steps : ℚ))

/-- The angle `smooth_move` commands at loop index `i` (0-based) on the
non-exceptional path: `int(current_pos + (step_size * (i + 1)))` in
binary64 arithmetic. -/
def flAngle (current_pos target : Int) (steps i : Nat) : Int :=
  ratTrunc (fl (fl ((current_pos : ℚ))
    + fl (flStepSize current_pos target steps * fl ((i : ℚ) + 1))))

/-- The `for i in range(steps)` loop of `smooth_move` (lines 118-121),
recursing over the remaining indices and threading the serial handle
through the `send_servo_command` calls.  The first component collects the
`(servo, angle)` argument pairs of the issued `send_servo_command` calls;
an exception in the angle computation ends the loop with no further
sends. -/
def smooth_move_go (servo : String) (current_pos : Int) (step_size : ℚ) :
    List Nat → Option Serial → List (String × Int) × Option Serial
  | [], a => ([], a)
  | i :: rest, a =>
    match pyStepAngle current_pos step_size i with
    | none => ([], a)
    | some angle =>
      let r := send_servo_command a servo angle
      let t := smooth_move_go servo current_pos step_size rest r.2.2
      ((servo, angle) :: t.1, t.2)

/-- `smooth_move` of `voice_stt_tts_fixed.py` (lines 107-123), with the
rest-position table passed explicitly (it is the module-global dict
`SERVO_REST` in the source; the stateful model below threads it).
Returns the issued `(servo, angle)` send calls and the serial handle; an
exception computing `step_size` reaches the handler before any send. -/
def smooth_move_from (arduino : Option Serial) (rest : List (String × Int))
    (servo : String) (target : Int) (steps : Nat) :
    List (String × Int) × Option Serial :=
  match arduino with
  | none => ([], none)
  | some s =>
    if s.is_open = false then ([], some s)
    else
      let current_pos : Int := (rest.lookup servo).getD 90
      match pyDivIntInt (target - current_pos) steps with
      | none => ([], some s)
      | some step_size =>
        smooth_move_go servo current_pos step_size (List.range steps) (some s)

/-- `smooth_move` reading the module-global `SERVO_REST`. -/
def smooth_move (arduino : Option Serial) (servo : String) (target : Int) (steps : Nat) :
    List (String × Int) × Option Serial :=
  smooth_move_from arduino SERVO_REST servo target steps

/-- `SERVO_REST.get(servo, 90)`: the start angle `smooth_move` uses. -/
def restAngle (servo : String) : Int := (SERVO_REST.lookup servo).getD 90

/-- The module-global state of `voice_stt_tts_fixed.py` that the servo
operations can see: the `SERVO_REST` dict and the `arduino` handle. -/
structure ModuleState where
  servoRest : List (String × Int)
  arduino : Option Serial
deriving DecidableEq, Repr

/-- The servo operations of the module, as invocable steps. -/
inductive Op
  | sendCmd (servo : String) (angle : Int)
  | smoothMoveOp (servo : String) (target : Int) (steps : Nat)
deriving DecidableEq, Repr

/-- Run one operation on the module state, returning the new state and the
`(servo, angle)` send calls it issued.  `sendCmd` and `smoothMoveOp` read
`servoRest` but never write it, exactly as the source never assigns to
`SERVO_REST` after its definition. -/
def runOp (st : ModuleState) : Op → ModuleState × List (String × Int)
  | .sendCmd servo angle =>
    let r := send_servo_command st.arduino servo angle
    ({ st with arduino := r.2.2 }, [(servo, angle)])
  | .smoothMoveOp servo target steps =>
    let r := smooth_move_from st.arduino st.servoRest servo target steps
    ({ st with arduino := r.2 }, r.1)

/-- Run a list of operations from a given state. -/
def runOps (st : ModuleState) : List Op → ModuleState
  | [] => st
  | op :: rest => runOps (runOp st op).1 rest

/-- The module state right after initialization. -/
def initState (arduino : Option Serial) : ModuleState :=
  { servoRest := SERVO_REST, arduino := arduino }

end Voice

namespace Pi

/-- `SERVO_PINS` of `pi_api_server.py` (lines 37-41). -/
def SERVO_PINS : List (String × Nat) :=
  [("pan", 2), ("left_arm", 4), ("right_arm", 5)]

/-- `GESTURES` of `pi_api_server.py` (lines 44-76). -/
def GESTURES : List (String × List (String × Int)) :=
  [ ("wave",
     [("pan", 90), ("right_arm", 70), ("right_arm", 40),
      ("right_arm", 70), ("right_arm", 40), ("right_arm", 70),
      ("right_arm", 40), ("left_arm", 90), ("right_arm", 90)]),
    ("nod",
     [("pan", 105), ("pan", 75), ("pan", 105), ("pan", 75), ("pan", 90)]),
    ("shake",
     [("pan", 65), ("pan", 115), ("pan", 65), ("pan", 115), ("pan", 90)]),
    ("happy",
     [("left_arm", 170), ("right_arm", 170), ("pan", 75),
      ("pan", 105), ("pan", 75), ("pan", 105),
      ("left_arm", 90), ("right_arm", 90), ("pan", 90)]),
    ("sad",
     [("pan", 50), ("left_arm", 60), ("right_arm", 60),
      ("pan", 50), ("left_arm", 90), ("right_arm", 90), ("pan", 90)]),
    ("excited",
     [("left_arm", 170), ("right_arm", 170), ("pan", 60),
      ("pan", 120), ("left_arm", 90), ("right_arm", 90), ("pan", 90)]),
    ("curious",
     [("pan", 70), ("left_arm", 110), ("right_arm", 110),
      ("pan", 70), ("left_arm", 90), ("right_arm", 90), ("pan", 90)]),
    ("rest",
     [("pan", 90), ("left_arm", 90), ("right_arm", 90)]) ]

/-- The handshake loop of `init_arduino` in `pi_api_server.py`
(lines 84-89): `while in_waiting > 0` drains the pending lines and returns
`True` whether or not `"READY"` was among them; with nothing pending the
loop exits at once and the function still returns `True`. -/
def init_arduino_drain : List String → Bool
  | [] => true
  | r :: rest => if r = "READY" then true else init_arduino_drain rest

/-- `send_servo_command` of `pi_api_server.py` (lines 94-106): fire and
forget, no acknowledgment is read and the handle is left unchanged.
Returns the Python boolean result and the lines written to the wire. -/
def send_servo_command (arduino : Option Serial) (pin : Nat) (angle : Int) :
    Bool × List String :=
  match arduino with
  | none => (false, [])
  | some s =>
    if s.is_open = false then (false, [])
    else if s.writeFails then (false, [])
    else (true, [toString pin ++ ":" ++ toString angle ++ "\n"])

/-- One observable event of `perform_gesture`: a `send_servo_command` call
(with its result) or a `time.sleep` (duration in milliseconds). -/
inductive Ev
  | send (pin : Nat) (angle : Int) (ok : Bool)
  | sleep (millis : Nat)
deriving DecidableEq, Repr

/-- `perform_gesture` of `pi_api_server.py` (lines 108-119).  Returns the
Python boolean result and the ordered event trace: for each step whose
servo resolves in `SERVO_PINS`, a `send_servo_command` call followed by
`time.sleep(0.15)`; the send result is never inspected. -/
def perform_gesture (arduino : Option Serial) (name : String) : Bool × List Ev :=
  match GESTURES.lookup name with
  | none => (false, [])
  | some seq =>
    (true, seq.flatMap fun p =>
      match SERVO_PINS.lookup p.1 with
      | none => []
      | some pin =>
        [Ev.send pin p.2 (send_servo_command arduino pin p.2).1, Ev.sleep 150])

/-- The `(pin, angle)` pairs of the send calls in an event trace. -/
def callsOf : List Ev → List (Nat × Int)
  | [] => []
  | Ev.send pin angle _ :: rest => (pin, angle) :: callsOf rest
  | Ev.sleep _ :: rest => callsOf rest

/-- A gesture sequence resolved through `SERVO_PINS`: the `(pin, angle)`
pairs of the steps whose servo name is bound to a channel. -/
def resolvedCalls (seq : List (String × Int)) : List (Nat × Int) :=
  seq.filterMap fun p => (SERVO_PINS.lookup p.1).map fun pin => (pin, p.2)

/-- The last angle commanded for a channel in a resolved call list. -/
def lastAngleOn (calls : List (Nat × Int)) (ch : Nat) : Option Int :=
  (calls.filter fun c => c.1 == ch).getLast?.map fun c => c.2

end Pi

/-! ## Helper lemmas -/

theorem ratTrunc_mono {x y : ℚ} (h : x ≤ y) : ratTrunc x ≤ ratTrunc y := by
  unfold ratTrunc
  split <;> split
  · exact Int.floor_mono h
  · exact absurd (le_trans (by assumption) h) (by assumption)
  · have h1 : ⌈x⌉ ≤ 0 := Int.ceil_le.mpr
      (by exact_mod_cast le_of_lt (lt_of_not_ge (by assumption : ¬0 ≤ x)))
    have h2 : (0 : ℤ) ≤ ⌊y⌋ := Int.le_floor.mpr (by exact_mod_cast (by assumption : 0 ≤ y))
    omega
  · exact Int.ceil_mono h

theorem ratTrunc_intCast (k : ℤ) : ratTrunc ((k : ℤ) : ℚ) = k := by
  rw [ratTrunc]
  split <;> simp

theorem rndNE_intCast (k : ℤ) : rndNE ((k : ℤ) : ℚ) = k := by
  rw [rndNE]
  simp [Int.fract_intCast]

theorem floor_le_rndNE (q : ℚ) : ⌊q⌋ ≤ rndNE q := by
  rw [rndNE]
  repeat' split
  all_goals omega

theorem rndNE_le_ceil (q : ℚ) : rndNE q ≤ ⌈q⌉ := by
  have hfr : Int.fract q = q - ⌊q⌋ := rfl
  by_cases h0 : Int.fract q = 0
  · have h1 : rndNE q = ⌊q⌋ := by
      rw [rndNE, if_pos]
      rw [h0]
      norm_num
    rw [h1]
    exact Int.floor_le_ceil q
  · have hpos : 0 < Int.fract q := lt_of_le_of_ne (Int.fract_nonneg q) (Ne.symm h0)
    have hlt : (⌊q⌋ : ℚ) < q := by linarith
    have h1 : ⌊q⌋ + 1 ≤ ⌈q⌉ := Int.add_one_le_ceil_iff.mpr hlt
    rw [rndNE]
    repeat' split
    all_goals omega

theorem rndNE_le_add_half (q : ℚ) : (rndNE q : ℚ) ≤ q + 1 / 2 := by
  have hfr : Int.fract q = q - ⌊q⌋ := rfl
  have h0 := Int.fract_nonneg q
  have h1 := Int.fract_lt_one q
  rw [rndNE]
  repeat' split
  all_goals push_cast
  all_goals linarith

theorem sub_half_le_rndNE (q : ℚ) : q - 1 / 2 ≤ (rndNE q : ℚ) := by
  have hfr : Int.fract q = q - ⌊q⌋ := rfl
  have h0 := Int.fract_nonneg q
  have h1 := Int.fract_lt_one q
  rw [rndNE]
  repeat' split
  all_goals push_cast
  all_goals linarith

theorem rndNE_mono {q r : ℚ} (h : q ≤ r) : rndNE q ≤ rndNE r := by
  by_contra hlt
  push_neg at hlt
  have h1 := rndNE_le_add_half q
  have h2 := sub_half_le_rndNE r
  have h3 : (rndNE r : ℚ) + 1 ≤ (rndNE q : ℚ) := by exact_mod_cast hlt
  have h4 : r ≤ q := by linarith
  have h5 : q = r := le_antisymm h h4
  rw [h5] at hlt
  exact lt_irrefl _ hlt

theorem rndNE_nonneg {q : ℚ} (h : 0 ≤ q) : 0 ≤ rndNE q :=
  le_trans (Int.floor_nonneg.mpr h) (floor_le_rndNE q)

theorem rndNE_neg (q : ℚ) : rndNE (-q) = -rndNE q := by
  by_cases h0 : Int.fract q = 0
  · have hfr : Int.fract q = q - ⌊q⌋ := rfl
    obtain ⟨k, rfl⟩ : ∃ k : ℤ, q = (k : ℚ) := ⟨⌊q⌋, by linarith⟩
    rw [show (-(k : ℚ)) = ((-k : ℤ) : ℚ) by push_cast; ring, rndNE_intCast, rndNE_intCast]
  · have hfr : Int.fract q = q - ⌊q⌋ := rfl
    have hneg : Int.fract (-q) = 1 - Int.fract q := Int.fract_neg h0
    have hflr : ⌊-q⌋ = -⌊q⌋ - 1 := by
      have hlt : (⌊q⌋ : ℚ) < q := by
        have := lt_of_le_of_ne (Int.fract_nonneg q) (Ne.symm h0)
        linarith
      have hc1 : ⌊q⌋ + 1 ≤ ⌈q⌉ := Int.add_one_le_ceil_iff.mpr hlt
      have hc2 : ⌈q⌉ ≤ ⌊q⌋ + 1 := Int.ceil_le_floor_add_one q
      rw [Int.floor_neg]
      omega
    have hq0 := Int.fract_nonneg q
    have hq1 := Int.fract_lt_one q
    rw [rndNE, rndNE, hneg, hflr]
    rcases lt_trichotomy (Int.fract q) (1 / 2) with hc | hc | hc
    · rw [if_neg (by linarith), if_pos (by linarith), if_pos hc]
      ring
    · rw [hc]
      norm_num
      rcases Int.even_or_odd ⌊q⌋ with he | ho
      · have h1 : ¬Even (-⌊q⌋ - 1) := by
          rcases he with ⟨m, hm⟩
          rintro ⟨t, ht⟩
          omega
        rw [if_neg h1, if_pos he]
      · have h1 : Even (-⌊q⌋ - 1) := by
          rcases ho with ⟨m, hm⟩
          exact ⟨-m - 1, by omega⟩
        have h2 : ¬Even ⌊q⌋ := by
          rcases ho with ⟨m, hm⟩
          rintro ⟨t, ht⟩
          omega
        rw [if_pos h1, if_neg h2]
        ring
    · rw [if_pos (by linarith), if_neg (by linarith), if_pos hc]
      ring

theorem flExp_neg (x : ℚ) : flExp (-x) = flExp x := by
  rw [flExp, flExp, abs_neg]

theorem fl_zero : fl 0 = 0 := by
  have h : rndNE ((0 : ℚ) / 2 ^ flExp 0) = 0 := by
    have := rndNE_intCast 0
    simpa using this
  rw [fl, h]
  norm_num

theorem fl_neg (x : ℚ) : fl (-x) = -fl x := by
  rw [fl, fl, flExp_neg, neg_div, rndNE_neg]
  push_cast
  ring

theorem fl_nonneg {x : ℚ} (h : 0 ≤ x) : 0 ≤ fl x := by
  rw [fl]
  have h2 : (0 : ℚ) < 2 ^ flExp x := by positivity
  have h1 : 0 ≤ rndNE (x / 2 ^ flExp x) := rndNE_nonneg (div_nonneg h h2.le)
  exact mul_nonneg (by exact_mod_cast h1) h2.le

theorem fl_nonpos {x : ℚ} (h : x ≤ 0) : fl x ≤ 0 := by
  have h1 := fl_nonneg (neg_nonneg.mpr h)
  rw [fl_neg] at h1
  linarith

theorem zpow_flExp_le {x : ℚ} (hx : x ≠ 0) : (2 : ℚ) ^ flExp x ≤ |x| + 1 := by
  have habs : (0 : ℚ) < |x| := abs_pos.mpr hx
  rcases le_or_lt (Int.log 2 |x| - 52) (-1074) with h | h
  · rw [flExp, max_eq_right h]
    have h1 : (2 : ℚ) ^ (-1074 : ℤ) ≤ 1 := by
      rw [show (1 : ℚ) = (2 : ℚ) ^ (0 : ℤ) by norm_num]
      exact zpow_le_zpow_right₀ (by norm_num) (by norm_num)
    linarith
  · rw [flExp, max_eq_left h.le]
    have h1 : (2 : ℚ) ^ Int.log 2 |x| ≤ |x| := by
      exact_mod_cast Int.zpow_log_le_self (b := 2) (by norm_num) habs
    have h2 : (2 : ℚ) ^ (Int.log 2 |x| - 52) ≤ (2 : ℚ) ^ Int.log 2 |x| :=
      zpow_le_zpow_right₀ (by norm_num) (by omega)
    linarith

theorem fl_abs_le (x : ℚ) : |fl x| ≤ 2 * |x| + 1 := by
  by_cases hx : x = 0
  · subst hx
    rw [fl_zero]
    norm_num
  · have hE : (0 : ℚ) < 2 ^ flExp x := by positivity
    have h1 := rndNE_le_add_half (x / 2 ^ flExp x)
    have h2 := sub_half_le_rndNE (x / 2 ^ flExp x)
    have hEle := zpow_flExp_le hx
    rw [fl, abs_mul, abs_of_pos hE]
    have habs : |(rndNE (x / 2 ^ flExp x) : ℚ)| ≤ |x| / 2 ^ flExp x + 1 / 2 := by
      rw [abs_le]
      constructor
      · have hd : -|x| / 2 ^ flExp x ≤ x / 2 ^ flExp x := by gcongr; exact neg_abs_le x
        rw [neg_div] at hd
        linarith
      · have hd : x / 2 ^ flExp x ≤ |x| / 2 ^ flExp x := by gcongr; exact le_abs_self x
        linarith
    calc |(rndNE (x / 2 ^ flExp x) : ℚ)| * 2 ^ flExp x
        ≤ (|x| / 2 ^ flExp x + 1 / 2) * 2 ^ flExp x :=
          mul_le_mul_of_nonneg_right habs hE.le
      _ = |x| + 2 ^ flExp x / 2 := by
          rw [add_mul, div_mul_cancel₀ _ (ne_of_gt hE)]
          ring
      _ ≤ |x| + (|x| + 1) / 2 := by linarith
      _ ≤ 2 * |x| + 1 := by linarith [abs_nonneg x]

theorem flExp_mono {x y : ℚ} (hx : 0 < x) (hxy : x ≤ y) : flExp x ≤ flExp y := by
  rw [flExp, flExp]
  have h1 : Int.log 2 |x| ≤ Int.log 2 |y| := by
    rw [abs_of_pos hx, abs_of_pos (lt_of_lt_of_le hx hxy)]
    exact Int.log_mono_right hx hxy
  exact max_le_max (by omega) le_rfl

theorem fl_le_zpow {x : ℚ} {k : ℤ} (_hx : 0 ≤ x) (hxk : x ≤ 2 ^ k) (hEk : flExp x ≤ k) :
    fl x ≤ 2 ^ k := by
  have hE : (0 : ℚ) < 2 ^ flExp x := by positivity
  have hMQ : ((2 ^ (k - flExp x).toNat : ℤ) : ℚ) = 2 ^ (k - flExp x) := by
    push_cast
    rw [← zpow_natCast (2 : ℚ), Int.toNat_of_nonneg (by omega)]
  have hq : x / 2 ^ flExp x ≤ ((2 ^ (k - flExp x).toNat : ℤ) : ℚ) := by
    rw [hMQ, div_le_iff₀ hE, ← zpow_add₀ (by norm_num : (2 : ℚ) ≠ 0)]
    rw [sub_add_cancel]
    exact hxk
  have hceil : rndNE (x / 2 ^ flExp x) ≤ 2 ^ (k - flExp x).toNat :=
    le_trans (rndNE_le_ceil _) (Int.ceil_le.mpr hq)
  calc fl x = (rndNE (x / 2 ^ flExp x) : ℚ) * 2 ^ flExp x := rfl
    _ ≤ ((2 ^ (k - flExp x).toNat : ℤ) : ℚ) * 2 ^ flExp x :=
        mul_le_mul_of_nonneg_right (by exact_mod_cast hceil) hE.le
    _ = 2 ^ k := by
        rw [hMQ, ← zpow_add₀ (by norm_num : (2 : ℚ) ≠ 0), sub_add_cancel]

theorem zpow_le_fl {y : ℚ} {k : ℤ} (hyk : 2 ^ k ≤ y) (hEk : flExp y ≤ k) :
    2 ^ k ≤ fl y := by
  have hE : (0 : ℚ) < 2 ^ flExp y := by positivity
  have hMQ : ((2 ^ (k - flExp y).toNat : ℤ) : ℚ) = 2 ^ (k - flExp y) := by
    push_cast
    rw [← zpow_natCast (2 : ℚ), Int.toNat_of_nonneg (by omega)]
  have hq : ((2 ^ (k - flExp y).toNat : ℤ) : ℚ) ≤ y / 2 ^ flExp y := by
    rw [hMQ, le_div_iff₀ hE, ← zpow_add₀ (by norm_num : (2 : ℚ) ≠ 0)]
    rw [sub_add_cancel]
    exact hyk
  have hfloor : (2 ^ (k - flExp y).toNat : ℤ) ≤ rndNE (y / 2 ^ flExp y) :=
    le_trans (Int.le_floor.mpr hq) (floor_le_rndNE _)
  calc (2 : ℚ) ^ k = ((2 ^ (k - flExp y).toNat : ℤ) : ℚ) * 2 ^ flExp y := by
        rw [hMQ, ← zpow_add₀ (by norm_num : (2 : ℚ) ≠ 0), sub_add_cancel]
    _ ≤ (rndNE (y / 2 ^ flExp y) : ℚ) * 2 ^ flExp y :=
        mul_le_mul_of_nonneg_right (by exact_mod_cast hfloor) hE.le
    _ = fl y := rfl

theorem fl_mono_nonneg {x y : ℚ} (hx : 0 ≤ x) (h : x ≤ y) : fl x ≤ fl y := by
  rcases eq_or_lt_of_le hx with hx0 | hx0
  · rw [← hx0, fl_zero]
    exact fl_nonneg (hx0 ▸ h)
  · rcases eq_or_lt_of_le (flExp_mono hx0 h) with hE | hE
    · rw [fl, fl, ← hE]
      apply mul_le_mul_of_nonneg_right _ (by positivity)
      have hd : x / 2 ^ flExp x ≤ y / 2 ^ flExp x := by gcongr
      exact_mod_cast rndNE_mono hd
    · have hy0 : 0 < y := lt_of_lt_of_le hx0 h
      have hEy : flExp y = Int.log 2 |y| - 52 := by
        by_cases hca : -1074 ≤ Int.log 2 |y| - 52
        · rw [flExp, max_eq_left hca]
        · exfalso
          push_neg at hca
          have h2 : -1074 ≤ flExp x := le_max_right _ _
          have h3 : flExp y = -1074 := by rw [flExp, max_eq_right (by omega)]
          omega
      have hLL : Int.log 2 |x| < Int.log 2 |y| := by
        have h1 : Int.log 2 |x| - 52 ≤ flExp x := le_max_left _ _
        omega
      have hxLy : x ≤ 2 ^ Int.log 2 |y| := by
        have h1 : |x| < (2 : ℚ) ^ (Int.log 2 |x| + 1) := by
          exact_mod_cast Int.lt_zpow_succ_log_self (b := 2) (by norm_num) |x|
        have h2 : (2 : ℚ) ^ (Int.log 2 |x| + 1) ≤ 2 ^ Int.log 2 |y| :=
          zpow_le_zpow_right₀ (by norm_num) (by omega)
        calc x ≤ |x| := le_abs_self x
          _ ≤ 2 ^ Int.log 2 |y| := le_trans h1.le h2
      have hfx : fl x ≤ 2 ^ Int.log 2 |y| := fl_le_zpow hx0.le hxLy (by omega)
      have hyLy : (2 : ℚ) ^ Int.log 2 |y| ≤ y := by
        have h1 : (2 : ℚ) ^ Int.log 2 |y| ≤ |y| := by
          exact_mod_cast Int.zpow_log_le_self (b := 2) (by norm_num) (abs_pos.mpr hy0.ne')
        calc (2 : ℚ) ^ Int.log 2 |y| ≤ |y| := h1
          _ = y := abs_of_pos hy0
      have hfy : (2 : ℚ) ^ Int.log 2 |y| ≤ fl y := zpow_le_fl hyLy (by omega)
      linarith

theorem fl_mono {x y : ℚ} (h : x ≤ y) : fl x ≤ fl y := by
  rcases le_or_lt 0 x with hx | hx
  · exact fl_mono_nonneg hx h
  · rcases le_or_lt 0 y with hy | hy
    · exact le_trans (fl_nonpos hx.le) (fl_nonneg hy)
    · have h1 : fl (-y) ≤ fl (-x) := fl_mono_nonneg (by linarith) (by linarith)
      rw [fl_neg, fl_neg] at h1
      linarith

theorem int_log2_eq {q : ℚ} {k : ℤ} (h1 : (2 : ℚ) ^ k ≤ q) (h2 : q < (2 : ℚ) ^ (k + 1)) :
    Int.log 2 q = k := by
  have hq : 0 < q := lt_of_lt_of_le (by positivity) h1
  have ha : k ≤ Int.log 2 q := by
    rw [← Int.zpow_le_iff_le_log (by norm_num) hq]
    exact_mod_cast h1
  have hb : Int.log 2 q < k + 1 := by
    rw [← Int.lt_zpow_iff_log_lt (by norm_num) hq]
    exact_mod_cast h2
  omega

theorem fl_eval_aux {x : ℚ} {L : ℤ} (h1 : (2 : ℚ) ^ L ≤ |x|) (h2 : |x| < (2 : ℚ) ^ (L + 1))
    (hL : -1022 ≤ L) {k : ℤ} (hk : rndNE (x / 2 ^ (L - 52)) = k) :
    fl x = (k : ℚ) * 2 ^ (L - 52) := by
  have hlog : Int.log 2 |x| = L := int_log2_eq h1 h2
  have hE : flExp x = L - 52 := by
    rw [flExp, hlog]
    exact max_eq_left (by omega)
  rw [fl, hE, hk]

theorem fl_of_dyadic {x : ℚ} (k : ℤ) (h : x = (k : ℚ) * 2 ^ flExp x) : fl x = x := by
  have hE : (2 : ℚ) ^ flExp x ≠ 0 := by positivity
  have hq : x / 2 ^ flExp x = (k : ℚ) := by
    rw [div_eq_iff hE]
    exact h
  rw [fl, hq, rndNE_intCast, ← h]

theorem fl_int_le_pow53 {n : ℤ} (hn : |n| ≤ 2 ^ 53) : fl ((n : ℤ) : ℚ) = (n : ℚ) := by
  by_cases h0 : n = 0
  · subst h0
    push_cast
    exact fl_zero
  · have habs : (0 : ℚ) < |(n : ℚ)| := by
      rw [abs_pos]
      exact_mod_cast h0
    have hcast53 : |(n : ℚ)| ≤ (2 : ℚ) ^ (53 : ℤ) := by
      rw [show |(n : ℚ)| = ((|n| : ℤ) : ℚ) from Int.cast_abs.symm,
        show ((53 : ℤ)) = ((53 : ℕ) : ℤ) by norm_num, zpow_natCast]
      exact_mod_cast hn
    have hlog : Int.log 2 |(n : ℚ)| ≤ 53 := by
      calc Int.log 2 |(n : ℚ)| ≤ Int.log 2 ((2 : ℚ) ^ (53 : ℤ)) :=
            Int.log_mono_right habs hcast53
        _ = 53 := by exact_mod_cast Int.log_zpow (R := ℚ) (b := 2) (by norm_num) 53
    rcases le_or_lt (flExp ((n : ℤ) : ℚ)) 0 with hE | hE
    · apply fl_of_dyadic (n * 2 ^ (-flExp ((n : ℤ) : ℚ)).toNat)
      push_cast
      rw [← zpow_natCast (2 : ℚ) (-flExp ((n : ℤ) : ℚ)).toNat,
        Int.toNat_of_nonneg (by omega), mul_assoc,
        ← zpow_add₀ (by norm_num : (2 : ℚ) ≠ 0)]
      simp
    · have hEeq : flExp ((n : ℤ) : ℚ) = Int.log 2 |(n : ℚ)| - 52 := by
        by_cases hca : -1074 ≤ Int.log 2 |(n : ℚ)| - 52
        · rw [flExp, max_eq_left hca]
        · exfalso
          push_neg at hca
          have h3 : flExp ((n : ℤ) : ℚ) = -1074 := by
            rw [flExp, max_eq_right (by omega)]
          omega
      have hlog53 : Int.log 2 |(n : ℚ)| = 53 := by omega
      have h2 : (2 : ℚ) ^ (53 : ℤ) ≤ |(n : ℚ)| := by
        rw [← hlog53]
        exact_mod_cast Int.zpow_log_le_self (b := 2) (by norm_num) habs
      have habs53 : |n| = 2 ^ 53 := by
        refine le_antisymm hn ?_
        have h3 : ((2 ^ 53 : ℤ) : ℚ) ≤ ((|n| : ℤ) : ℚ) := by
          rw [Int.cast_abs]
          calc ((2 ^ 53 : ℤ) : ℚ) = (2 : ℚ) ^ (53 : ℤ) := by
                rw [show ((53 : ℤ)) = ((53 : ℕ) : ℤ) by norm_num, zpow_natCast]
                push_cast
                ring
            _ ≤ |(n : ℚ)| := h2
        exact_mod_cast h3
      apply fl_of_dyadic (n / 2)
      rw [hEeq, hlog53, show ((53 : ℤ) - 52) = (1 : ℤ) by norm_num, zpow_one]
      rcases (abs_eq (by positivity : (0 : ℤ) ≤ 2 ^ 53)).mp habs53 with hn' | hn' <;>
        rw [hn']
      · norm_num
      · norm_num

theorem smooth_move_go_cons (servo : String) (cp : Int) (c : ℚ) (i : Nat)
    (rest : List Nat) (a : Option Serial) :
    Voice.smooth_move_go servo cp c (i :: rest) a
      = match Voice.pyStepAngle cp c i with
        | none => ([], a)
        | some angle =>
          ((servo, angle) :: (Voice.smooth_move_go servo cp c rest
            (Voice.send_servo_command a servo angle).2.2).1,
           (Voice.smooth_move_go servo cp c rest
            (Voice.send_servo_command a servo angle).2.2).2) := rfl

theorem smooth_move_go_fst (servo : String) (cp : Int) (c : ℚ) (g : Nat → Int)
    (l : List Nat) (hl : ∀ i ∈ l, Voice.pyStepAngle cp c i = some (g i)) :
    ∀ a : Option Serial,
      (Voice.smooth_move_go servo cp c l a).1 = l.map fun i => (servo, g i) := by
  induction l with
  | nil => intro a; rfl
  | cons i rest ih =>
    intro a
    have hi := hl i (List.mem_cons_self i rest)
    rw [smooth_move_go_cons, hi, List.map_cons]
    exact congrArg (List.cons _)
      (ih (fun j hj => hl j (List.mem_cons_of_mem i hj)) _)

theorem flStepSize_abs_le (cp target : Int) (N : Nat) (hcp : |cp| ≤ 2 ^ 53)
    (ht : |target| ≤ 2 ^ 53) (hN : 1 ≤ N) :
    |Voice.flStepSize cp target N| ≤ 2 ^ 56 := by
  have hd : |((target - cp : Int) : ℚ)| ≤ 2 ^ 54 := by
    rw [show |((target - cp : Int) : ℚ)| = ((|target - cp| : ℤ) : ℚ) from Int.cast_abs.symm]
    have h1a := abs_le.mp ht
    have h1b := abs_le.mp hcp
    have hpow : (2 : ℤ) ^ 54 = 2 ^ 53 + 2 ^ 53 := by norm_num
    have h1 : |target - cp| ≤ 2 ^ 54 := by
      rw [abs_le]
      constructor <;> linarith
    exact_mod_cast h1
  have hN1 : (1 : ℚ) ≤ ((N : ℕ) : ℚ) := by exact_mod_cast hN
  have hdiv : |((target - cp : Int) : ℚ) / ((N : ℕ) : ℚ)| ≤ 2 ^ 54 := by
    rw [abs_div, abs_of_nonneg (by positivity : (0 : ℚ) ≤ ((N : ℕ) : ℚ))]
    calc |((target - cp : Int) : ℚ)| / ((N : ℕ) : ℚ)
        ≤ |((target - cp : Int) : ℚ)| := div_le_self (abs_nonneg _) hN1
      _ ≤ 2 ^ 54 := hd
  rw [Voice.flStepSize]
  calc |fl (((target - cp : Int) : ℚ) / ((N : ℕ) : ℚ))|
      ≤ 2 * |((target - cp : Int) : ℚ) / ((N : ℕ) : ℚ)| + 1 := fl_abs_le _
    _ ≤ 2 * 2 ^ 54 + 1 := by linarith
    _ ≤ 2 ^ 56 := by norm_num

theorem pyDivIntInt_eq (cp target : Int) (N : Nat) (hcp : |cp| ≤ 2 ^ 53)
    (ht : |target| ≤ 2 ^ 53) (hN : 1 ≤ N) :
    pyDivIntInt (target - cp) N = some (Voice.flStepSize cp target N) := by
  have hb := flStepSize_abs_le cp target N hcp ht hN
  rw [pyDivIntInt, if_neg (by omega)]
  rw [if_neg ?_]
  · rfl
  · rw [flHuge]
    intro hcon
    have : (2 : ℚ) ^ 1024 ≤ 2 ^ 56 := le_trans hcon hb
    norm_num at this

theorem pyStepAngle_eq (cp target : Int) (N i : Nat) (hcp : |cp| ≤ 2 ^ 53)
    (ht : |target| ≤ 2 ^ 53) (hN : 1 ≤ N) (hNle : N ≤ 2 ^ 53) (hi : i < N) :
    Voice.pyStepAngle cp (Voice.flStepSize cp target N) i
      = some (Voice.flAngle cp target N i) := by
  have hc := flStepSize_abs_le cp target N hcp ht hN
  have hm : |fl ((i : ℚ) + 1)| ≤ 2 ^ 55 := by
    have h1 : |(i : ℚ) + 1| ≤ 2 ^ 53 := by
      rw [abs_of_nonneg (by positivity)]
      have h2 : (i : ℚ) + 1 ≤ ((N : ℕ) : ℚ) := by exact_mod_cast hi
      have h3 : ((N : ℕ) : ℚ) ≤ 2 ^ 53 := by exact_mod_cast hNle
      linarith
    calc |fl ((i : ℚ) + 1)| ≤ 2 * |(i : ℚ) + 1| + 1 := fl_abs_le _
      _ ≤ 2 * 2 ^ 53 + 1 := by linarith
      _ ≤ 2 ^ 55 := by norm_num
  have hp : |fl (Voice.flStepSize cp target N * fl ((i : ℚ) + 1))| ≤ 2 ^ 113 := by
    have h1 : |Voice.flStepSize cp target N * fl ((i : ℚ) + 1)| ≤ 2 ^ 56 * 2 ^ 55 := by
      rw [abs_mul]
      exact mul_le_mul hc hm (abs_nonneg _) (by positivity)
    calc |fl (Voice.flStepSize cp target N * fl ((i : ℚ) + 1))|
        ≤ 2 * |Voice.flStepSize cp target N * fl ((i : ℚ) + 1)| + 1 := fl_abs_le _
      _ ≤ 2 * (2 ^ 56 * 2 ^ 55) + 1 := by linarith
      _ ≤ 2 ^ 113 := by norm_num
  have hcpf : |fl ((cp : ℤ) : ℚ)| ≤ 2 ^ 55 := by
    have h1 : |((cp : ℤ) : ℚ)| ≤ 2 ^ 53 := by
      rw [show |((cp : ℤ) : ℚ)| = ((|cp| : ℤ) : ℚ) from Int.cast_abs.symm]
      exact_mod_cast hcp
    calc |fl ((cp : ℤ) : ℚ)| ≤ 2 * |((cp : ℤ) : ℚ)| + 1 := fl_abs_le _
      _ ≤ 2 * 2 ^ 53 + 1 := by linarith
      _ ≤ 2 ^ 55 := by norm_num
  have hs : |fl (fl ((cp : ℤ) : ℚ)
      + fl (Voice.flStepSize cp target N * fl ((i : ℚ) + 1)))| ≤ 2 ^ 115 := by
    have h1 : |fl ((cp : ℤ) : ℚ)
        + fl (Voice.flStepSize cp target N * fl ((i : ℚ) + 1))| ≤ 2 ^ 55 + 2 ^ 113 :=
      le_trans (abs_add _ _) (add_le_add hcpf hp)
    calc |fl (fl ((cp : ℤ) : ℚ)
          + fl (Voice.flStepSize cp target N * fl ((i : ℚ) + 1)))|
        ≤ 2 * |fl ((cp : ℤ) : ℚ)
            + fl (Voice.flStepSize cp target N * fl ((i : ℚ) + 1))| + 1 := fl_abs_le _
      _ ≤ 2 * (2 ^ 55 + 2 ^ 113) + 1 := by linarith
      _ ≤ 2 ^ 115 := by norm_num
  rw [Voice.pyStepAngle]
  rw [if_neg ?_]
  · rfl
  · rw [flHuge]
    push_neg
    refine ⟨?_, ?_, ?_, ?_⟩
    · calc |fl ((i : ℚ) + 1)| ≤ 2 ^ 55 := hm
        _ < 2 ^ 1024 := by norm_num
    · calc |fl (Voice.flStepSize cp target N * fl ((i : ℚ) + 1))| ≤ 2 ^ 113 := hp
        _ < 2 ^ 1024 := by norm_num
    · calc |fl ((cp : ℤ) : ℚ)| ≤ 2 ^ 55 := hcpf
        _ < 2 ^ 1024 := by norm_num
    · calc |fl (fl ((cp : ℤ) : ℚ)
            + fl (Voice.flStepSize cp target N * fl ((i : ℚ) + 1)))| ≤ 2 ^ 115 := hs
        _ < 2 ^ 1024 := by norm_num

theorem flAngle_le_of_lt {cp target : Int} {N : Nat} (h : cp < target) {i j : Nat}
    (hij : i ≤ j) : Voice.flAngle cp target N i ≤ Voice.flAngle cp target N j := by
  unfold Voice.flAngle
  apply ratTrunc_mono
  apply fl_mono
  apply add_le_add_left
  apply fl_mono
  have hc : 0 ≤ Voice.flStepSize cp target N := by
    apply fl_nonneg
    apply div_nonneg _ (by positivity)
    exact_mod_cast (by omega : (0 : ℤ) ≤ target - cp)
  apply mul_le_mul_of_nonneg_left _ hc
  apply fl_mono
  have h1 : (i : ℚ) ≤ (j : ℚ) := by exact_mod_cast hij
  linarith

theorem flAngle_le_of_gt {cp target : Int} {N : Nat} (h : target < cp) {i j : Nat}
    (hij : i ≤ j) : Voice.flAngle cp target N j ≤ Voice.flAngle cp target N i := by
  unfold Voice.flAngle
  apply ratTrunc_mono
  apply fl_mono
  apply add_le_add_left
  apply fl_mono
  have hc : Voice.flStepSize cp target N ≤ 0 := by
    apply fl_nonpos
    apply div_nonpos_of_nonpos_of_nonneg _ (by positivity)
    exact_mod_cast (by omega : (target - cp : ℤ) ≤ 0)
  have hij1 : fl ((i : ℚ) + 1) ≤ fl ((j : ℚ) + 1) := by
    apply fl_mono
    have h1 : (i : ℚ) ≤ (j : ℚ) := by exact_mod_cast hij
    linarith
  exact mul_le_mul_of_nonpos_left hij1 hc

theorem flAngle_eval {cp target : Int} {N i : Nat} {c : ℤ}
    (hcast : ((target - cp : Int) : ℚ) / ((N : ℕ) : ℚ) = ((c : ℤ) : ℚ))
    (hc : |c| ≤ 2 ^ 53) (hcp : |cp| ≤ 2 ^ 53) (hi : (i : ℤ) + 1 ≤ 2 ^ 53)
    (hm : |c * ((i : ℤ) + 1)| ≤ 2 ^ 53) (hs : |cp + c * ((i : ℤ) + 1)| ≤ 2 ^ 53) :
    Voice.flAngle cp target N i = cp + c * ((i : ℤ) + 1) := by
  unfold Voice.flAngle Voice.flStepSize
  rw [hcast, fl_int_le_pow53 hc]
  rw [show ((i : ℚ) + 1) = (((i : ℤ) + 1 : ℤ) : ℚ) by push_cast; ring]
  rw [fl_int_le_pow53 (n := (i : ℤ) + 1)
    (by rw [abs_of_nonneg (by omega : (0 : ℤ) ≤ (i : ℤ) + 1)]; exact hi)]
  rw [show ((c : ℤ) : ℚ) * (((i : ℤ) + 1 : ℤ) : ℚ) = ((c * ((i : ℤ) + 1) : ℤ) : ℚ) by
    push_cast; ring]
  rw [fl_int_le_pow53 hm, fl_int_le_pow53 hcp]
  rw [show ((cp : ℤ) : ℚ) + ((c * ((i : ℤ) + 1) : ℤ) : ℚ)
      = ((cp + c * ((i : ℤ) + 1) : ℤ) : ℚ) by push_cast; ring]
  rw [fl_int_le_pow53 hs, ratTrunc_intCast]

theorem smooth_move_open (s : Serial) (servo : String) (target : Int) (steps : Nat)
    (hopen : s.is_open = true) :
    Voice.smooth_move (some s) servo target steps
      = match pyDivIntInt (target - Voice.restAngle servo) steps with
        | none => ([], some s)
        | some step_size =>
          Voice.smooth_move_go servo (Voice.restAngle servo) step_size
            (List.range steps) (some s) := by
  have h1 : Voice.smooth_move (some s) servo target steps
      = if s.is_open = false then ([], some s)
        else match pyDivIntInt (target - ((Voice.SERVO_REST.lookup servo).getD 90)) steps with
          | none => ([], some s)
          | some step_size =>
            Voice.smooth_move_go servo ((Voice.SERVO_REST.lookup servo).getD 90) step_size
              (List.range steps) (some s) := rfl
  rw [h1, hopen, if_neg (by simp)]
  rfl

theorem restAngle_eq (servo : String) : Voice.restAngle servo = 90 := by
  simp only [Voice.restAngle, Voice.SERVO_REST, List.lookup]
  repeat' split
  all_goals simp

theorem perform_flatMap (a : Option Serial) (seq : List (String × Int)) :
    (seq.flatMap fun p =>
      match Pi.SERVO_PINS.lookup p.1 with
      | none => []
      | some pin => [Pi.Ev.send pin p.2 (Pi.send_servo_command a pin p.2).1, Pi.Ev.sleep 150])
    = (Pi.resolvedCalls seq).flatMap fun c =>
        [Pi.Ev.send c.1 c.2 (Pi.send_servo_command a c.1 c.2).1, Pi.Ev.sleep 150] := by
  induction seq with
  | nil => rfl
  | cons p rest ih =>
    simp only [List.flatMap_cons, Pi.resolvedCalls, List.filterMap_cons] at ih ⊢
    cases h : Pi.SERVO_PINS.lookup p.1 <;> simp [h, ih]

theorem callsOf_flatMap (calls : List (Nat × Int)) (g : Nat × Int → Bool) :
    Pi.callsOf (calls.flatMap fun c => [Pi.Ev.send c.1 c.2 (g c), Pi.Ev.sleep 150]) = calls := by
  induction calls with
  | nil => rfl
  | cons c rest ih =>
    show (c.1, c.2) :: Pi.callsOf
        (rest.flatMap fun c => [Pi.Ev.send c.1 c.2 (g c), Pi.Ev.sleep 150]) = c :: rest
    rw [ih]

theorem runOp_servoRest (st : Voice.ModuleState) (op : Voice.Op) :
    ((Voice.runOp st op).1).servoRest = st.servoRest := by
  cases op <;> rfl

theorem runOps_servoRest (ops : List Voice.Op) :
    ∀ st : Voice.ModuleState, (Voice.runOps st ops).servoRest = st.servoRest := by
  induction ops with
  | nil => intro st; rfl
  | cons op rest ih =>
    intro st
    rw [Voice.runOps, ih, runOp_servoRest]

theorem gestures_all_rest :
    ∀ p ∈ Pi.GESTURES, ∀ ch ∈ (Pi.resolvedCalls p.2).map Prod.fst,
      Pi.lastAngleOn (Pi.resolvedCalls p.2) ch = some 90 := by decide

/-! ## Claim theorems -/

/-- C2: the claim says `connect` terminates and returns a ready handle even
when the device never sends the readiness token.  The `pi_api_server.py`
variant does (its drain loop returns `true` on every finite pending input),
but the `voice_stt_tts_fixed.py` variant busy-waits forever when `"READY"`
never arrives: on the empty device trace its handshake loop never returns
(`none`), even though the unreachable `return True` after the loop shows a
bounded wait was intended. -/
theorem init_arduino_handshake_termination :
    Voice.init_arduino_wait [] = none ∧
    Voice.init_arduino_wait ["HELLO"] = none ∧
    Pi.init_arduino_drain [] = true ∧
    Pi.init_arduino_drain ["HELLO"] = true ∧
    Voice.init_arduino_wait ["READY"] = some true := by
  refine ⟨rfl, ?_, rfl, ?_, ?_⟩ <;> decide

/-- C4: when the link is not open (no handle, or handle closed), `send`
returns `false` with zero bytes written in both variants, and
`smooth_move` is a silent no-op that issues zero send calls. -/
theorem closed_link_noop (s : Serial) (pin : Nat) (servo : String) (angle target : Int)
    (steps : Nat) (hclosed : s.is_open = false) :
    Pi.send_servo_command none pin angle = (false, []) ∧
    Pi.send_servo_command (some s) pin angle = (false, []) ∧
    Voice.send_servo_command none servo angle = (false, [], none) ∧
    Voice.send_servo_command (some s) servo angle = (false, [], some s) ∧
    Voice.smooth_move none servo target steps = ([], none) ∧
    Voice.smooth_move (some s) servo target steps = ([], some s) := by
  refine ⟨rfl, ?_, rfl, ?_, rfl, ?_⟩ <;>
    simp [Pi.send_servo_command, Voice.send_servo_command, Voice.smooth_move,
      Voice.smooth_move_from, hclosed]

theorem closed_link_noop_witness :
    (Serial.mk false [] false).is_open = false ∧
    (Pi.send_servo_command none 2 90 = (false, []) ∧
     Pi.send_servo_command (some (Serial.mk false [] false)) 2 90 = (false, []) ∧
     Voice.send_servo_command none "pan" 90 = (false, [], none) ∧
     Voice.send_servo_command (some (Serial.mk false [] false)) "pan" 90
       = (false, [], some (Serial.mk false [] false)) ∧
     Voice.smooth_move none "pan" 105 10 = ([], none) ∧
     Voice.smooth_move (some (Serial.mk false [] false)) "pan" 105 10
       = ([], some (Serial.mk false [] false))) :=
  ⟨rfl, closed_link_noop (Serial.mk false [] false) 2 "pan" 90 105 10 rfl⟩

/-- C5: every command that reaches the wire is the ASCII line
`"<channel>:<angle>\n"`, in both variants; concretely, sending
`left_arm` (channel 4) to 170 with a device acknowledging `"OK"`
transmits exactly `"4:170\n"` and returns `true`. -/
theorem send_wire_format (s : Serial) (servo : String) (pin : Nat) (angle : Int)
    (hopen : s.is_open = true) (hpin : Voice.SERVO_PINS.lookup servo = some pin)
    (hw : s.writeFails = false) :
    (Voice.send_servo_command (some s) servo angle).2.1
      = [toString pin ++ ":" ++ toString angle ++ "\n"] ∧
    Pi.send_servo_command (some s) pin angle
      = (true, [toString pin ++ ":" ++ toString angle ++ "\n"]) ∧
    Voice.send_servo_command (some (Serial.mk true ["OK"] false)) "left_arm" 170
      = (true, ["4:170\n"], some (Serial.mk true [] false)) := by
  refine ⟨?_, ?_, by decide⟩
  · simp only [Voice.send_servo_command, hopen, hpin, hw]
    cases hib : s.inbox <;> simp [hib]
  · simp [Pi.send_servo_command, hopen, hw]

theorem send_wire_format_witness :
    (Serial.mk true ["OK"] false).is_open = true ∧
    Voice.SERVO_PINS.lookup "left_arm" = some 4 ∧
    (Serial.mk true ["OK"] false).writeFails = false ∧
    ((Voice.send_servo_command (some (Serial.mk true ["OK"] false)) "left_arm" 170).2.1
       = [toString 4 ++ ":" ++ toString (170 : Int) ++ "\n"] ∧
     Pi.send_servo_command (some (Serial.mk true ["OK"] false)) 4 170
       = (true, [toString 4 ++ ":" ++ toString (170 : Int) ++ "\n"]) ∧
     Voice.send_servo_command (some (Serial.mk true ["OK"] false)) "left_arm" 170
       = (true, ["4:170\n"], some (Serial.mk true [] false))) :=
  ⟨rfl, by decide, rfl,
   send_wire_format (Serial.mk true ["OK"] false) "left_arm" 4 170 rfl (by decide) rfl⟩

/-- C6: in the acknowledgment-waiting variant (`voice_stt_tts_fixed.py`),
`send` returns `true` iff an acknowledgment line starting with `"OK"` is
available after the write; no pending line, or a line not starting with
`"OK"`, yields `false`.  In the fire-and-forget variant
(`pi_api_server.py`), a successful write alone yields `true`. -/
theorem send_ack_semantics (s s2 : Serial) (servo : String) (pin pin2 : Nat)
    (angle angle2 : Int) (hopen : s.is_open = true)
    (hpin : Voice.SERVO_PINS.lookup servo = some pin) (hw : s.writeFails = false)
    (hopen2 : s2.is_open = true) (hw2 : s2.writeFails = false) :
    ((Voice.send_servo_command (some s) servo angle).1 = true ↔
      ∃ r rest, s.inbox = r :: rest ∧ pyStartsWith r "OK" = true) ∧
    (Pi.send_servo_command (some s2) pin2 angle2).1 = true := by
  constructor
  · simp only [Voice.send_servo_command, hopen, hpin, hw]
    cases hib : s.inbox with
    | nil => simp [hib]
    | cons r rest => simp [hib]
  · simp [Pi.send_servo_command, hopen2, hw2]

theorem send_ack_semantics_witness :
    (Serial.mk true ["OK"] false).is_open = true ∧
    Voice.SERVO_PINS.lookup "pan" = some 2 ∧
    (Serial.mk true ["OK"] false).writeFails = false ∧
    (((Voice.send_servo_command (some (Serial.mk true ["OK"] false)) "pan" 120).1 = true ↔
       ∃ r rest, (Serial.mk true ["OK"] false).inbox = r :: rest ∧
         pyStartsWith r "OK" = true) ∧
     (Pi.send_servo_command (some (Serial.mk true ["OK"] false)) 2 120).1 = true) :=
  ⟨rfl, by decide, rfl,
   send_ack_semantics (Serial.mk true ["OK"] false) (Serial.mk true ["OK"] false)
     "pan" 2 2 120 120 rfl (by decide) rfl rfl rfl⟩

/-- C7: unknown names are no-ops, never fatal: an unknown gesture name
makes `perform_gesture` return `false` with an empty event trace, and an
unknown servo name makes the voice-variant `send_servo_command` return
`false` with zero bytes written and the handle untouched. -/
theorem unknown_name_noop (a : Option Serial) (s : Serial) (name servo : String)
    (angle : Int) (hg : Pi.GESTURES.lookup name = none)
    (hs : Voice.SERVO_PINS.lookup servo = none) :
    Pi.perform_gesture a name = (false, []) ∧
    Voice.send_servo_command (some s) servo angle = (false, [], some s) ∧
    Voice.send_servo_command none servo angle = (false, [], none) := by
  refine ⟨?_, ?_, rfl⟩
  · simp [Pi.perform_gesture, hg]
  · unfold Voice.send_servo_command
    cases h : s.is_open <;> simp [h, hs]

theorem unknown_name_noop_witness :
    Pi.GESTURES.lookup "dab" = none ∧
    Voice.SERVO_PINS.lookup "tail" = none ∧
    (Pi.perform_gesture none "dab" = (false, []) ∧
     Voice.send_servo_command (some (Serial.mk true [] false)) "tail" 90
       = (false, [], some (Serial.mk true [] false)) ∧
     Voice.send_servo_command none "tail" 90 = (false, [], none)) :=
  ⟨by decide, by decide,
   unknown_name_noop none (Serial.mk true [] false) "dab" "tail" 90 (by decide) (by decide)⟩

/-- C8: in every gesture of the static catalog (each of which ends in a
return-to-rest portion), the last angle commanded on any channel that the
gesture touches is the rest angle 90. -/
theorem gesture_rest_final (name : String) (seq : List (String × Int))
    (hmem : (name, seq) ∈ Pi.GESTURES) (ch : Nat)
    (hch : ch ∈ (Pi.resolvedCalls seq).map Prod.fst) :
    Pi.lastAngleOn (Pi.resolvedCalls seq) ch = some 90 :=
  gestures_all_rest (name, seq) hmem ch hch

theorem gesture_rest_final_witness :
    ("nod", [("pan", 105), ("pan", 75), ("pan", 105), ("pan", 75), ("pan", 90)])
      ∈ Pi.GESTURES ∧
    (2 : Nat) ∈ (Pi.resolvedCalls
      [("pan", 105), ("pan", 75), ("pan", 105), ("pan", 75), ("pan", 90)]).map Prod.fst ∧
    Pi.lastAngleOn (Pi.resolvedCalls
      [("pan", 105), ("pan", 75), ("pan", 105), ("pan", 75), ("pan", 90)]) 2 = some 90 :=
  ⟨by decide, by decide,
   gesture_rest_final "nod"
     [("pan", 105), ("pan", 75), ("pan", 105), ("pan", 75), ("pan", 90)]
     (by decide) 2 (by decide)⟩

/-- C1 (amended): with the link open, `|target| ≤ 2^53` and
`1 ≤ N ≤ 2^53` (beyond those bounds the double-precision arithmetic
leaves the binary64 range and the loop aborts through the exception
handler; the source only ever uses 3-10 steps and servo-range angles),
`smooth_move` issues exactly `N` send calls whose `i`-th commanded angle
(1-based) is `int(start + ((target - start)/N) * i)` evaluated in the
code's IEEE-754 double-precision arithmetic (correctly rounded, ties to
even) starting from the actuator's rest angle, and the commanded angles
are non-decreasing when `target > start` and non-increasing when
`target < start`. -/
theorem smooth_move_float_interpolation (s : Serial) (servo : String) (target : Int)
    (N : Nat) (hopen : s.is_open = true) (hN : 1 ≤ N)
    (htarget : |target| ≤ 2 ^ 53) (hNle : N ≤ 2 ^ 53) :
    (Voice.smooth_move (some s) servo target N).1
      = (List.range N).map
          (fun i => (servo, Voice.flAngle (Voice.restAngle servo) target N i)) ∧
    (Voice.smooth_move (some s) servo target N).1.length = N ∧
    (Voice.restAngle servo < target → ∀ i j, i ≤ j →
      Voice.flAngle (Voice.restAngle servo) target N i
        ≤ Voice.flAngle (Voice.restAngle servo) target N j) ∧
    (target < Voice.restAngle servo → ∀ i j, i ≤ j →
      Voice.flAngle (Voice.restAngle servo) target N j
        ≤ Voice.flAngle (Voice.restAngle servo) target N i) := by
  have hcp : |Voice.restAngle servo| ≤ 2 ^ 53 := by
    rw [restAngle_eq]
    norm_num
  have htrace : (Voice.smooth_move (some s) servo target N).1
      = (List.range N).map
          (fun i => (servo, Voice.flAngle (Voice.restAngle servo) target N i)) := by
    rw [smooth_move_open s servo target N hopen,
      pyDivIntInt_eq (Voice.restAngle servo) target N hcp htarget hN]
    exact smooth_move_go_fst servo (Voice.restAngle servo) _ _ (List.range N)
      (fun i hi => pyStepAngle_eq (Voice.restAngle servo) target N i hcp htarget hN hNle
        (List.mem_range.mp hi)) (some s)
  refine ⟨htrace, ?_, ?_, ?_⟩
  · rw [htrace]
    simp
  · intro h i j hij
    exact flAngle_le_of_lt h hij
  · intro h i j hij
    exact flAngle_le_of_gt h hij

theorem smooth_move_float_interpolation_witness :
    (Serial.mk true [] false).is_open = true ∧ (1 ≤ 5) ∧
    |(105 : ℤ)| ≤ 2 ^ 53 ∧ ((5 : ℕ) ≤ 2 ^ 53) ∧
    ((Voice.smooth_move (some (Serial.mk true [] false)) "head" 105 5).1
       = (List.range 5).map
           (fun i => ("head", Voice.flAngle (Voice.restAngle "head") 105 5 i)) ∧
     (Voice.smooth_move (some (Serial.mk true [] false)) "head" 105 5).1.length = 5 ∧
     (Voice.restAngle "head" < 105 → ∀ i j, i ≤ j →
       Voice.flAngle (Voice.restAngle "head") 105 5 i
         ≤ Voice.flAngle (Voice.restAngle "head") 105 5 j) ∧
     (105 < Voice.restAngle "head" → ∀ i j, i ≤ j →
       Voice.flAngle (Voice.restAngle "head") 105 5 j
         ≤ Voice.flAngle (Voice.restAngle "head") 105 5 i)) ∧
    (Voice.smooth_move (some (Serial.mk true [] false)) "head" 105 5).1
      = [("head", 93), ("head", 96), ("head", 99), ("head", 102), ("head", 105)] := by
  have hthm := smooth_move_float_interpolation (Serial.mk true [] false) "head" 105 5 rfl
    (by norm_num) (by norm_num) (by norm_num)
  refine ⟨rfl, by norm_num, by norm_num, by norm_num, hthm, ?_⟩
  rw [hthm.1]
  have hcast : (((105 : ℤ) - Voice.restAngle "head" : ℤ) : ℚ) / ((5 : ℕ) : ℚ)
      = ((3 : ℤ) : ℚ) := by
    rw [restAngle_eq]
    push_cast
    norm_num
  have hcp : |Voice.restAngle "head"| ≤ 2 ^ 53 := by
    rw [restAngle_eq]
    norm_num
  have e0 : Voice.flAngle (Voice.restAngle "head") 105 5 0 = 93 := by
    rw [flAngle_eval hcast (by norm_num) hcp (by norm_num)
      (by norm_num) (by rw [restAngle_eq]; norm_num), restAngle_eq]
    norm_num
  have e1 : Voice.flAngle (Voice.restAngle "head") 105 5 1 = 96 := by
    rw [flAngle_eval hcast (by norm_num) hcp (by norm_num)
      (by norm_num) (by rw [restAngle_eq]; norm_num), restAngle_eq]
    norm_num
  have e2 : Voice.flAngle (Voice.restAngle "head") 105 5 2 = 99 := by
    rw [flAngle_eval hcast (by norm_num) hcp (by norm_num)
      (by norm_num) (by rw [restAngle_eq]; norm_num), restAngle_eq]
    norm_num
  have e3 : Voice.flAngle (Voice.restAngle "head") 105 5 3 = 102 := by
    rw [flAngle_eval hcast (by norm_num) hcp (by norm_num)
      (by norm_num) (by rw [restAngle_eq]; norm_num), restAngle_eq]
    norm_num
  have e4 : Voice.flAngle (Voice.restAngle "head") 105 5 4 = 105 := by
    rw [flAngle_eval hcast (by norm_num) hcp (by norm_num)
      (by norm_num) (by rw [restAngle_eq]; norm_num), restAngle_eq]
    norm_num
  rw [show List.range 5 = [0, 1, 2, 3, 4] from rfl]
  simp only [List.map_cons, List.map_nil]
  rw [e0, e1, e2, e3, e4]

set_option exponentiation.threshold 1200 in
/-- C1 counterexample: the claim's per-step formula read in exact (real)
arithmetic is false of the code.  At `target = 2^60 + 1`, `steps = 1` the
code's double arithmetic commands angle `2^60` while the exact formula
gives `2^60 + 1`; and at `target = 2^1100`, `steps = 1` the step-size
division overflows, so zero send calls are issued instead of one. -/
theorem smooth_move_exact_formula_counterexample :
    (Voice.smooth_move (some (Serial.mk true [] false)) "head" (2 ^ 60 + 1) 1).1
      = [("head", 2 ^ 60)] ∧
    ratTrunc ((90 : ℚ) + ((2 ^ 60 + 1 : ℚ) - 90) / 1 * 1) = 2 ^ 60 + 1 ∧
    ((2 ^ 60 : ℤ) ≠ 2 ^ 60 + 1) ∧
    (Voice.smooth_move (some (Serial.mk true [] false)) "head" (2 ^ 1100) 1).1 = [] := by
  have hfl89 : fl ((2 ^ 60 - 89 : ℚ)) = 2 ^ 60 - 128 := by
    have h := fl_eval_aux (x := (2 ^ 60 - 89 : ℚ)) (L := 59)
      (by rw [abs_of_nonneg (by norm_num)]; norm_num)
      (by rw [abs_of_nonneg (by norm_num)]; norm_num)
      (by norm_num) (k := 2 ^ 53 - 1) ?_
    · rw [h, show ((59 : ℤ) - 52) = (7 : ℤ) by norm_num,
        show ((2 : ℚ) ^ (7 : ℤ)) = 128 by norm_num]
      push_cast
      norm_num
    · rw [show ((59 : ℤ) - 52) = (7 : ℤ) by norm_num,
        show ((2 : ℚ) ^ (7 : ℤ)) = 128 by norm_num]
      have hf : ⌊((2 ^ 60 - 89 : ℚ)) / 128⌋ = 2 ^ 53 - 1 := by
        norm_num [Int.floor_eq_iff]
      have hfr : Int.fract ((2 ^ 60 - 89 : ℚ) / 128) = 39 / 128 := by
        have h0 : Int.fract ((2 ^ 60 - 89 : ℚ) / 128)
            = (2 ^ 60 - 89 : ℚ) / 128 - ⌊((2 ^ 60 - 89 : ℚ)) / 128⌋ := rfl
        rw [h0, hf]
        push_cast
        norm_num
      rw [rndNE, hfr, if_pos (by norm_num), hf]
  have hfl128 : fl ((2 ^ 60 - 128 : ℚ)) = 2 ^ 60 - 128 := by
    have h := fl_eval_aux (x := (2 ^ 60 - 128 : ℚ)) (L := 59)
      (by rw [abs_of_nonneg (by norm_num)]; norm_num)
      (by rw [abs_of_nonneg (by norm_num)]; norm_num)
      (by norm_num) (k := 2 ^ 53 - 1) ?_
    · rw [h, show ((59 : ℤ) - 52) = (7 : ℤ) by norm_num,
        show ((2 : ℚ) ^ (7 : ℤ)) = 128 by norm_num]
      push_cast
      norm_num
    · rw [show ((59 : ℤ) - 52) = (7 : ℤ) by norm_num,
        show ((2 : ℚ) ^ (7 : ℤ)) = 128 by norm_num]
      have hf : ⌊((2 ^ 60 - 128 : ℚ)) / 128⌋ = 2 ^ 53 - 1 := by
        norm_num [Int.floor_eq_iff]
      have hfr : Int.fract ((2 ^ 60 - 128 : ℚ) / 128) = 0 := by
        have h0 : Int.fract ((2 ^ 60 - 128 : ℚ) / 128)
            = (2 ^ 60 - 128 : ℚ) / 128 - ⌊((2 ^ 60 - 128 : ℚ)) / 128⌋ := rfl
        rw [h0, hf]
        push_cast
        norm_num
      rw [rndNE, hfr, if_pos (by norm_num), hf]
  have hfl38 : fl ((2 ^ 60 - 38 : ℚ)) = 2 ^ 60 := by
    have h := fl_eval_aux (x := (2 ^ 60 - 38 : ℚ)) (L := 59)
      (by rw [abs_of_nonneg (by norm_num)]; norm_num)
      (by rw [abs_of_nonneg (by norm_num)]; norm_num)
      (by norm_num) (k := 2 ^ 53) ?_
    · rw [h, show ((59 : ℤ) - 52) = (7 : ℤ) by norm_num,
        show ((2 : ℚ) ^ (7 : ℤ)) = 128 by norm_num]
      push_cast
      norm_num
    · rw [show ((59 : ℤ) - 52) = (7 : ℤ) by norm_num,
        show ((2 : ℚ) ^ (7 : ℤ)) = 128 by norm_num]
      have hf : ⌊((2 ^ 60 - 38 : ℚ)) / 128⌋ = 2 ^ 53 - 1 := by
        norm_num [Int.floor_eq_iff]
      have hfr : Int.fract ((2 ^ 60 - 38 : ℚ) / 128) = 90 / 128 := by
        have h0 : Int.fract ((2 ^ 60 - 38 : ℚ) / 128)
            = (2 ^ 60 - 38 : ℚ) / 128 - ⌊((2 ^ 60 - 38 : ℚ)) / 128⌋ := rfl
        rw [h0, hf]
        push_cast
        norm_num
      rw [rndNE, hfr, if_neg (by norm_num), if_pos (by norm_num), hf]
      norm_num
  have hdiv1 : pyDivIntInt ((2 ^ 60 + 1 : ℤ) - 90) 1 = some (2 ^ 60 - 128 : ℚ) := by
    rw [pyDivIntInt, if_neg (by norm_num : ¬(1 = 0))]
    rw [show ((((2 ^ 60 + 1 : ℤ) - 90 : ℤ)) : ℚ) / ((1 : ℕ) : ℚ) = 2 ^ 60 - 89 by
      push_cast; norm_num]
    rw [hfl89, if_neg (by rw [flHuge, abs_of_nonneg (by norm_num)]; norm_num)]
  have hm1 : fl (((0 : ℕ) : ℚ) + 1) = 1 := by
    rw [show (((0 : ℕ) : ℚ) + 1) = ((1 : ℤ) : ℚ) by norm_num,
      fl_int_le_pow53 (by norm_num)]
    norm_num
  have hcp1 : fl (((90 : ℤ)) : ℚ) = 90 := by
    rw [fl_int_le_pow53 (by norm_num)]
    norm_num
  have hp1 : fl ((2 ^ 60 - 128 : ℚ) * fl (((0 : ℕ) : ℚ) + 1)) = 2 ^ 60 - 128 := by
    rw [hm1, mul_one]
    exact hfl128
  have hs1 : fl (fl (((90 : ℤ)) : ℚ) + fl ((2 ^ 60 - 128 : ℚ) * fl (((0 : ℕ) : ℚ) + 1)))
      = 2 ^ 60 := by
    rw [hcp1, hp1, show ((90 : ℚ) + (2 ^ 60 - 128)) = 2 ^ 60 - 38 by norm_num]
    exact hfl38
  have hang : Voice.pyStepAngle 90 (2 ^ 60 - 128 : ℚ) 0 = some (2 ^ 60) := by
    rw [Voice.pyStepAngle]
    rw [if_neg ?_]
    · rw [hs1]
      norm_num [ratTrunc]
    · push_neg
      refine ⟨?_, ?_, ?_, ?_⟩
      · rw [hm1, flHuge]
        norm_num
      · rw [hp1, flHuge, abs_of_nonneg (by norm_num)]
        norm_num
      · rw [hcp1, flHuge]
        norm_num
      · rw [hs1, flHuge, abs_of_nonneg (by norm_num)]
        norm_num
  have hfl1100 : fl ((2 ^ 1100 - 90 : ℚ)) = 2 ^ 1100 := by
    have h := fl_eval_aux (x := (2 ^ 1100 - 90 : ℚ)) (L := 1099)
      (by rw [abs_of_nonneg (by norm_num)]; norm_num)
      (by rw [abs_of_nonneg (by norm_num)]; norm_num)
      (by norm_num) (k := 2 ^ 53) ?_
    · rw [h, show ((1099 : ℤ) - 52) = (1047 : ℤ) by norm_num,
        show ((2 : ℚ) ^ (1047 : ℤ)) = 2 ^ (1047 : ℕ) by norm_num]
      push_cast
      norm_num
    · rw [show ((1099 : ℤ) - 52) = (1047 : ℤ) by norm_num,
        show ((2 : ℚ) ^ (1047 : ℤ)) = 2 ^ (1047 : ℕ) by norm_num]
      have hf : ⌊((2 ^ 1100 - 90 : ℚ)) / 2 ^ (1047 : ℕ)⌋ = 2 ^ 53 - 1 := by
        norm_num [Int.floor_eq_iff]
      have hfr : Int.fract ((2 ^ 1100 - 90 : ℚ) / 2 ^ (1047 : ℕ))
          = (2 ^ 1047 - 90) / 2 ^ (1047 : ℕ) := by
        have h0 : Int.fract ((2 ^ 1100 - 90 : ℚ) / 2 ^ (1047 : ℕ))
            = (2 ^ 1100 - 90 : ℚ) / 2 ^ (1047 : ℕ)
              - ⌊((2 ^ 1100 - 90 : ℚ)) / 2 ^ (1047 : ℕ)⌋ := rfl
        rw [h0, hf]
        push_cast
        rw [div_sub' _ _ _ (by positivity), div_eq_div_iff (by positivity) (by positivity)]
        ring
      rw [rndNE, hfr, if_neg (by rw [not_lt, le_div_iff₀ (by positivity)]; norm_num),
        if_pos (by rw [lt_div_iff₀ (by positivity)]; norm_num), hf]
      norm_num
  have hdiv2 : pyDivIntInt ((2 ^ 1100 : ℤ) - 90) 1 = none := by
    rw [pyDivIntInt, if_neg (by norm_num : ¬(1 = 0))]
    rw [show ((((2 ^ 1100 : ℤ) - 90 : ℤ)) : ℚ) / ((1 : ℕ) : ℚ) = 2 ^ 1100 - 90 by
      push_cast; norm_num]
    rw [hfl1100, if_pos (by rw [flHuge, abs_of_nonneg (by norm_num)]; norm_num)]
  refine ⟨?_, by norm_num [ratTrunc], by norm_num, ?_⟩
  · have h1 : Voice.smooth_move (some (Serial.mk true [] false)) "head" (2 ^ 60 + 1) 1
        = Voice.smooth_move_go "head" 90 (2 ^ 60 - 128 : ℚ) (List.range 1)
            (some (Serial.mk true [] false)) := by
      rw [smooth_move_open _ _ _ _ rfl, restAngle_eq, hdiv1]
    have h2 : (Voice.smooth_move_go "head" 90 (2 ^ 60 - 128 : ℚ) [0]
        (some (Serial.mk true [] false))).1 = [("head", 2 ^ 60)] := by
      rw [smooth_move_go_cons, hang]
      rfl
    rw [h1]
    exact h2
  · rw [smooth_move_open _ _ _ _ rfl, restAngle_eq, hdiv2]

/-- C3: `perform_gesture` returns `false` iff the name is not in the static
catalog; for a known name it plays the catalog's step list in order, each
resolved `(channel, angle)` step sent once (no retries) and followed by the
fixed 150 ms sleep, continues past failed sends, and returns `true` for
every link state, including ones where every send fails. -/
theorem perform_gesture_execution (a : Option Serial) (name : String) :
    ((Pi.perform_gesture a name).1 = false ↔ Pi.GESTURES.lookup name = none) ∧
    (∀ seq, Pi.GESTURES.lookup name = some seq →
      (Pi.perform_gesture a name).1 = true ∧
      (Pi.perform_gesture a name).2
        = (Pi.resolvedCalls seq).flatMap (fun c =>
            [Pi.Ev.send c.1 c.2 (Pi.send_servo_command a c.1 c.2).1, Pi.Ev.sleep 150]) ∧
      Pi.callsOf (Pi.perform_gesture a name).2 = Pi.resolvedCalls seq) := by
  constructor
  · cases hg : Pi.GESTURES.lookup name with
    | none => simp [Pi.perform_gesture, hg]
    | some seq => simp [Pi.perform_gesture, hg]
  · intro seq hg
    have h2 : (Pi.perform_gesture a name).2
        = (Pi.resolvedCalls seq).flatMap (fun c =>
            [Pi.Ev.send c.1 c.2 (Pi.send_servo_command a c.1 c.2).1, Pi.Ev.sleep 150]) := by
      simp only [Pi.perform_gesture, hg]
      exact perform_flatMap a seq
    refine ⟨by simp [Pi.perform_gesture, hg], h2, ?_⟩
    rw [h2]
    exact callsOf_flatMap _ _

theorem perform_gesture_execution_witness :
    Pi.GESTURES.lookup "rest" = some [("pan", 90), ("left_arm", 90), ("right_arm", 90)] ∧
    (Pi.perform_gesture none "rest").1 = true ∧
    Pi.callsOf (Pi.perform_gesture none "rest").2 = [(2, 90), (4, 90), (5, 90)] ∧
    ((Pi.perform_gesture none "nonsense").1 = false ↔
      Pi.GESTURES.lookup "nonsense" = none) :=
  ⟨by decide,
   ((perform_gesture_execution none "rest").2
     [("pan", 90), ("left_arm", 90), ("right_arm", 90)] (by decide)).1,
   by
     rw [((perform_gesture_execution none "rest").2
       [("pan", 90), ("left_arm", 90), ("right_arm", 90)] (by decide)).2.2]
     decide,
   (perform_gesture_execution none "nonsense").1⟩

/-- C9: gesture playback is deterministic: two invocations of
`perform_gesture` with the same name, under arbitrary (possibly different)
link states, produce the identical ordered `(channel, angle)` sequence and
the same boolean result, because the catalog and channel bindings are
static data. -/
theorem gesture_replay_deterministic (name : String) (a1 a2 : Option Serial) :
    Pi.callsOf (Pi.perform_gesture a1 name).2 = Pi.callsOf (Pi.perform_gesture a2 name).2 ∧
    (Pi.perform_gesture a1 name).1 = (Pi.perform_gesture a2 name).1 := by
  cases hg : Pi.GESTURES.lookup name with
  | none => simp [Pi.perform_gesture, hg]
  | some seq =>
    constructor
    · calc Pi.callsOf (Pi.perform_gesture a1 name).2
          = Pi.resolvedCalls seq := by
            simp only [Pi.perform_gesture, hg]
            rw [perform_flatMap a1 seq]
            exact callsOf_flatMap _ _
        _ = Pi.callsOf (Pi.perform_gesture a2 name).2 := by
            simp only [Pi.perform_gesture, hg]
            rw [perform_flatMap a2 seq]
            exact (callsOf_flatMap _ _).symm
    · simp [Pi.perform_gesture, hg]

/-- C10: no operation of the voice module ever writes the rest-angle
table: after any sequence of send/smooth-move operations the table still
is the static `SERVO_REST`, every lookup in it yields the rest value 90,
and a `smooth_move` issued after those operations emits exactly what a
`smooth_move` reading the static table emits — it interpolates from rest,
not from any previously commanded angle. -/
theorem servo_rest_immutable (a : Option Serial) (ops : List Voice.Op)
    (servo : String) (target : Int) (steps : Nat) :
    (Voice.runOps (Voice.initState a) ops).servoRest = Voice.SERVO_REST ∧
    Voice.restAngle servo = 90 ∧
    (((Voice.runOps (Voice.initState a) ops).servoRest.lookup servo).getD 90 = 90) ∧
    (Voice.runOp (Voice.runOps (Voice.initState a) ops)
        (Voice.Op.smoothMoveOp servo target steps)).2
      = (Voice.smooth_move (Voice.runOps (Voice.initState a) ops).arduino
          servo target steps).1 := by
  have hrest := runOps_servoRest ops (Voice.initState a)
  have h90 := restAngle_eq servo
  refine ⟨hrest, h90, ?_, ?_⟩
  · rw [hrest]
    exact h90
  · show (Voice.smooth_move_from (Voice.runOps (Voice.initState a) ops).arduino
        (Voice.runOps (Voice.initState a) ops).servoRest servo target steps).1 = _
    rw [hrest]
    rfl

end Rufus
